import Mathlib

/-!
Verification development for the spell-checking engine in `src/spellchecker.c`.

Modelling conventions:
* C strings are modelled by their byte content as `List Nat`.  A C string is
  NUL-terminated, so its content never contains the byte 0; the model's
  functions are nevertheless total over all of `List Nat`, and
  `strcasecmp_custom` keeps the C loop's NUL-termination behaviour (a byte 0
  acts as end of string) so that the comparator factors through `caseFold`.
* `tolower`, `isalpha` and `isspace` model `<ctype.h>` in the default "C"
  locale, which is what the source relies on (ASCII-range classification).
* Allocation is assumed to succeed: the `malloc`/`realloc` failure returns in
  the C code are not modelled (the spec claims under scrutiny all concern the
  normal, allocation-success paths).
* `FILE *` input is modelled as `Option (List (List Nat))`: `none` models
  `fopen` failing, `some lines` models an opened file whose successive
  `fgets` calls return the elements of `lines` (each including any trailing
  newline, as `fgets` delivers it).
* `qsort` with `DictionaryComparator` is modelled by a sorting function that
  produces a comparator-sorted permutation of the array; `qsort` specifies
  nothing more (in particular no stability), and no claim under scrutiny
  depends on the order of comparator-equal entries produced by `qsort`.
-/

/-- Byte content of a C string. -/
abbrev Word := List Nat

/-- Model of `tolower` from `<ctype.h>` in the "C" locale: maps `A`-`Z`
(bytes 65-90) to `a`-`z` and is the identity elsewhere. -/
def tolower (c : Nat) : Nat :=
  if 65 ≤ c ∧ c ≤ 90 then c + 32 else c

/-- Model of `isalpha` in the "C" locale: `A`-`Z` or `a`-`z`. -/
def isalpha (c : Nat) : Bool :=
  decide ((65 ≤ c ∧ c ≤ 90) ∨ (97 ≤ c ∧ c ≤ 122))

/-- Model of `isspace` in the "C" locale: space (32) or `\t \n \v \f \r`
(bytes 9-13). -/
def isspace (c : Nat) : Bool :=
  decide (c = 32 ∨ (9 ≤ c ∧ c ≤ 13))

/-- Model of `strcasecmp_custom` in `spellchecker.c` (lines 60-69): walk both
strings while both current bytes are nonzero; return the difference of the
lowercased bytes at the first position where they differ (or where either
string ends).  A byte 0 terminates a C string, hence the explicit 0 test in
the cons/cons case. -/
def strcasecmp_custom : List Nat → List Nat → Int
  | [], [] => 0
  | [], c2 :: _ => 0 - (tolower c2 : Int)
  | c1 :: _, [] => (tolower c1 : Int) - 0
  | c1 :: s1, c2 :: s2 =>
    if c1 = 0 ∨ c2 = 0 then (tolower c1 : Int) - (tolower c2 : Int)
    else if tolower c1 ≠ tolower c2 then (tolower c1 : Int) - (tolower c2 : Int)
    else strcasecmp_custom s1 s2

/-- `DictionaryComparator` in `spellchecker.c` (lines 12-24) has exactly the
same body as `strcasecmp_custom`, acting on the two pointed-to strings. -/
def DictionaryComparator : List Nat → List Nat → Int := strcasecmp_custom

/-- The case-insensitive key of a C string: its content up to the first NUL,
lowercased.  For a genuine C string content (no 0 bytes) this is just the
lowercased word. -/
def caseFold (w : Word) : List Nat :=
  (w.takeWhile (fun b => b != 0)).map tolower

/-- Signed lexicographic comparison of two byte lists, mirrroring the shape of
`strcasecmp_custom` after case folding. -/
def lexD : List Nat → List Nat → Int
  | [], [] => 0
  | [], c :: _ => 0 - (c : Int)
  | c :: _, [] => (c : Int) - 0
  | c1 :: s1, c2 :: s2 => if c1 ≠ c2 then (c1 : Int) - (c2 : Int) else lexD s1 s2

theorem tolower_eq_zero {c : Nat} : tolower c = 0 ↔ c = 0 := by
  unfold tolower
  split <;> omega

theorem caseFold_pos (w : Word) : ∀ x ∈ caseFold w, x ≠ 0 := by
  intro x hx
  unfold caseFold at hx
  obtain ⟨b, hb, rfl⟩ := List.mem_map.mp hx
  have hb0 : b ≠ 0 := by
    have := List.mem_takeWhile_imp hb
    simpa using this
  exact fun h => hb0 (tolower_eq_zero.mp h)

theorem caseFold_nil : caseFold [] = [] := rfl

theorem caseFold_cons_zero (s : List Nat) : caseFold (0 :: s) = [] := rfl

theorem caseFold_cons {c : Nat} (s : List Nat) (hc : c ≠ 0) :
    caseFold (c :: s) = tolower c :: caseFold s := by
  unfold caseFold
  rw [List.takeWhile_cons_of_pos (by simpa using hc)]
  rfl

/-- `strcasecmp_custom` factors through case folding. -/
theorem strcasecmp_eq_lexD (a b : List Nat) :
    strcasecmp_custom a b = lexD (caseFold a) (caseFold b) := by
  induction a generalizing b with
  | nil =>
    cases b with
    | nil => rfl
    | cons c2 bs =>
      by_cases hc2 : c2 = 0
      · subst hc2
        simp [strcasecmp_custom, caseFold_cons_zero, caseFold_nil, lexD, tolower]
      · rw [caseFold_cons bs hc2]
        simp [strcasecmp_custom, caseFold_nil, lexD]
  | cons c1 as ih =>
    cases b with
    | nil =>
      by_cases hc1 : c1 = 0
      · subst hc1
        simp [strcasecmp_custom, caseFold_cons_zero, caseFold_nil, lexD, tolower]
      · rw [caseFold_cons as hc1]
        simp [strcasecmp_custom, caseFold_nil, lexD]
    | cons c2 bs =>
      by_cases hc1 : c1 = 0
      · subst hc1
        by_cases hc2 : c2 = 0
        · subst hc2
          simp [strcasecmp_custom, caseFold_cons_zero, lexD, tolower]
        · rw [caseFold_cons bs hc2]
          simp [strcasecmp_custom, caseFold_cons_zero, lexD, tolower]
      · by_cases hc2 : c2 = 0
        · subst hc2
          rw [caseFold_cons as hc1]
          simp [strcasecmp_custom, hc1, caseFold_cons_zero, lexD, tolower]
        · rw [caseFold_cons as hc1, caseFold_cons bs hc2]
          by_cases ht : tolower c1 = tolower c2
          · simp [strcasecmp_custom, hc1, hc2, ht, lexD, ih bs]
          · simp [strcasecmp_custom, hc1, hc2, ht, lexD]

/-- A byte list is `Pos` when all its bytes are nonzero (e.g. any `caseFold`
image). -/
def Pos (l : List Nat) : Prop := ∀ x ∈ l, x ≠ 0

theorem pos_tail {c : Nat} {l : List Nat} (h : Pos (c :: l)) : Pos l :=
  fun x hx => h x (List.mem_cons_of_mem _ hx)

theorem pos_head {c : Nat} {l : List Nat} (h : Pos (c :: l)) : c ≠ 0 :=
  h c (List.mem_cons_self c l)

theorem lexD_neg (a b : List Nat) : lexD b a = -(lexD a b) := by
  induction a generalizing b with
  | nil => cases b <;> simp [lexD]
  | cons c1 as ih =>
    cases b with
    | nil => simp [lexD]
    | cons c2 bs =>
      by_cases h : c1 = c2
      · subst h
        simp [lexD, ih bs]
      · simp [lexD, h, Ne.symm h]

theorem lexD_zero_iff {a b : List Nat} (ha : Pos a) (hb : Pos b) :
    lexD a b = 0 ↔ a = b := by
  induction a generalizing b with
  | nil =>
    cases b with
    | nil => simp [lexD]
    | cons c2 bs =>
      have : c2 ≠ 0 := pos_head hb
      simp [lexD]
      omega
  | cons c1 as ih =>
    cases b with
    | nil =>
      have : c1 ≠ 0 := pos_head ha
      simp [lexD]
      omega
    | cons c2 bs =>
      by_cases h : c1 = c2
      · subst h
        simp [lexD, ih (pos_tail ha) (pos_tail hb)]
      · simp [lexD, h]
        omega

theorem lexD_trans_le {a b c : List Nat} (ha : Pos a) (hb : Pos b) (hc : Pos c)
    (h1 : lexD a b ≤ 0) (h2 : lexD b c ≤ 0) : lexD a c ≤ 0 := by
  induction a generalizing b c with
  | nil =>
    cases c with
    | nil => simp [lexD]
    | cons c1 cs => simp [lexD]
  | cons a1 as ih =>
    cases b with
    | nil =>
      exfalso
      have : a1 ≠ 0 := pos_head ha
      simp [lexD] at h1
      omega
    | cons b1 bs =>
      cases c with
      | nil =>
        exfalso
        have : b1 ≠ 0 := pos_head hb
        simp [lexD] at h2
        omega
      | cons c1 cs =>
        by_cases hab : a1 = b1
        · subst hab
          by_cases hbc : a1 = c1
          · subst hbc
            simp [lexD] at h1 h2 ⊢
            exact ih (pos_tail ha) (pos_tail hb) (pos_tail hc) h1 h2
          · simp [lexD, hbc] at h2 ⊢
            omega
        · by_cases hbc : b1 = c1
          · subst hbc
            simp [lexD, hab] at h1 ⊢
            omega
          · simp [lexD, hab] at h1
            simp [lexD, hbc] at h2
            have hac : a1 < c1 := by omega
            simp [lexD, Nat.ne_of_lt hac]
            omega

theorem lexD_lt_of_le_of_lt {a b c : List Nat} (ha : Pos a) (hb : Pos b)
    (hc : Pos c) (h1 : lexD a b ≤ 0) (h2 : lexD b c < 0) : lexD a c < 0 := by
  induction a generalizing b c with
  | nil =>
    cases c with
    | nil =>
      exfalso
      cases b with
      | nil => simp [lexD] at h2
      | cons b1 bs =>
        have : b1 ≠ 0 := pos_head hb
        simp [lexD] at h2
        omega
    | cons c1 cs =>
      have : c1 ≠ 0 := pos_head hc
      simp [lexD]
      omega
  | cons a1 as ih =>
    cases b with
    | nil =>
      exfalso
      have : a1 ≠ 0 := pos_head ha
      simp [lexD] at h1
      omega
    | cons b1 bs =>
      cases c with
      | nil =>
        exfalso
        simp [lexD] at h2
        omega
      | cons c1 cs =>
        by_cases hab : a1 = b1
        · subst hab
          by_cases hbc : a1 = c1
          · subst hbc
            simp [lexD] at h1 h2 ⊢
            exact ih (pos_tail ha) (pos_tail hb) (pos_tail hc) h1 h2
          · simp [lexD, hbc] at h2 ⊢
            omega
        · by_cases hbc : b1 = c1
          · subst hbc
            simp [lexD, hab] at h1 ⊢
            omega
          · simp [lexD, hab] at h1
            simp [lexD, hbc] at h2
            have hac : a1 < c1 := by omega
            simp [lexD, Nat.ne_of_lt hac]
            omega

theorem strcasecmp_zero_iff {a b : List Nat} :
    strcasecmp_custom a b = 0 ↔ caseFold a = caseFold b := by
  rw [strcasecmp_eq_lexD]
  exact lexD_zero_iff (caseFold_pos a) (caseFold_pos b)

theorem strcasecmp_trans_le {a b c : List Nat}
    (h1 : strcasecmp_custom a b ≤ 0) (h2 : strcasecmp_custom b c ≤ 0) :
    strcasecmp_custom a c ≤ 0 := by
  rw [strcasecmp_eq_lexD] at h1 h2 ⊢
  exact lexD_trans_le (caseFold_pos a) (caseFold_pos b) (caseFold_pos c) h1 h2

theorem strcasecmp_lt_of_le_of_lt {a b c : List Nat}
    (h1 : strcasecmp_custom a b ≤ 0) (h2 : strcasecmp_custom b c < 0) :
    strcasecmp_custom a c < 0 := by
  rw [strcasecmp_eq_lexD] at h1 h2 ⊢
  exact lexD_lt_of_le_of_lt (caseFold_pos a) (caseFold_pos b) (caseFold_pos c) h1 h2

theorem strcasecmp_neg (a b : List Nat) :
    strcasecmp_custom b a = -(strcasecmp_custom a b) := by
  rw [strcasecmp_eq_lexD, strcasecmp_eq_lexD]
  exact lexD_neg _ _

/-- The ordering induced by `DictionaryComparator`, i.e. the postcondition
`qsort` establishes on adjacent dictionary entries. -/
abbrev dictLe (a b : Word) : Prop := DictionaryComparator a b ≤ 0

instance : IsTrans Word dictLe :=
  ⟨fun _ _ _ h1 h2 => strcasecmp_trans_le h1 h2⟩

instance : IsTotal Word dictLe := by
  refine ⟨fun a b => ?_⟩
  by_cases h : strcasecmp_custom a b ≤ 0
  · exact Or.inl h
  · refine Or.inr ?_
    have := strcasecmp_neg a b
    unfold dictLe DictionaryComparator
    omega

/-- Model of `qsort(words, count, sizeof(char *), DictionaryComparator)`: a
comparator-sorted permutation of the array.  `qsort` guarantees nothing about
the relative order of comparator-equal entries, and no claim below depends on
it. -/
def sortDict (l : List Word) : List Word := List.insertionSort dictLe l

theorem sortDict_sorted (l : List Word) : List.Sorted dictLe (sortDict l) :=
  List.sorted_insertionSort dictLe l

theorem sortDict_perm (l : List Word) : (sortDict l).Perm l :=
  List.perm_insertionSort dictLe l

/-- A dictionary in the state `qsort` leaves it in. -/
abbrev DictSorted (dict : List Word) : Prop := List.Sorted dictLe dict

/-- A word is present case-insensitively in a dictionary. -/
abbrev memCF (dict : List Word) (w : Word) : Prop :=
  ∃ x ∈ dict, caseFold x = caseFold w

/-- The loop of `BinarySearchDictionary` (`spellchecker.c` lines 72-82) with
C `int` indices modelled as `Int`.  The `fuel` argument is only a bound on the
number of iterations (the C loop terminates because the interval shrinks);
`BinarySearchDictionary` supplies enough fuel that it is never exhausted. -/
def bsAux (dict : List Word) (w : Word) : Nat → Int → Int → Bool
  | 0, _, _ => false
  | fuel + 1, left, right =>
    if left ≤ right then
      let mid : Int := left + (right - left) / 2
      let c := strcasecmp_custom (dict.getD mid.toNat []) w
      if c = 0 then true
      else if c < 0 then bsAux dict w fuel (mid + 1) right
      else bsAux dict w fuel left (mid - 1)
    else false

/-- Model of `BinarySearchDictionary`: search the whole array, `left = 0`,
`right = count - 1`. -/
def BinarySearchDictionary (dict : List Word) (w : Word) : Bool :=
  bsAux dict w (dict.length + 1) 0 ((dict.length : Int) - 1)

theorem bsAux_mid_bounds {left right : Int} (h : left ≤ right) :
    left ≤ left + (right - left) / 2 ∧ left + (right - left) / 2 ≤ right := by
  have h1 : (0 : Int) ≤ (right - left) / 2 := Int.ediv_nonneg (by omega) (by omega)
  have h2 : (right - left) / 2 ≤ right - left := Int.ediv_le_self _ (by omega)
  omega

theorem bsAux_sound {dict : List Word} {w : Word} :
    ∀ fuel (left right : Int), 0 ≤ left → right < (dict.length : Int) →
      bsAux dict w fuel left right = true →
      ∃ i : Nat, i < dict.length ∧ strcasecmp_custom (dict.getD i []) w = 0 := by
  intro fuel
  induction fuel with
  | zero => intro left right _ _ h; simp [bsAux] at h
  | succ fuel ih =>
    intro left right hl hr h
    rw [bsAux] at h
    by_cases hlr : left ≤ right
    · rw [if_pos hlr] at h
      obtain ⟨hm1, hm2⟩ := bsAux_mid_bounds hlr
      set mid : Int := left + (right - left) / 2 with hmid
      by_cases hc : strcasecmp_custom (dict.getD mid.toNat []) w = 0
      · exact ⟨mid.toNat, by omega, hc⟩
      · rw [if_neg hc] at h
        by_cases hlt : strcasecmp_custom (dict.getD mid.toNat []) w < 0
        · rw [if_pos hlt] at h
          exact ih (mid + 1) right (by omega) hr h
        · rw [if_neg hlt] at h
          exact ih left (mid - 1) hl (by omega) h
    · rw [if_neg hlr] at h
      simp at h

theorem sorted_getD_le {dict : List Word} (hs : DictSorted dict) {i j : Nat}
    (hij : i < j) (hj : j < dict.length) :
    strcasecmp_custom (dict.getD i []) (dict.getD j []) ≤ 0 := by
  have hi : i < dict.length := lt_trans hij hj
  rw [List.getD_eq_getElem dict [] hi, List.getD_eq_getElem dict [] hj]
  have := List.pairwise_iff_get.mp hs ⟨i, hi⟩ ⟨j, hj⟩ hij
  simpa [List.get_eq_getElem, dictLe, DictionaryComparator] using this

theorem bsAux_complete {dict : List Word} {w : Word} (hs : DictSorted dict) :
    ∀ fuel (left right : Int) (k : Nat), 0 ≤ left →
      left ≤ (k : Int) → (k : Int) ≤ right → right < (dict.length : Int) →
      strcasecmp_custom (dict.getD k []) w = 0 →
      (right + 1 - left).toNat ≤ fuel →
      bsAux dict w fuel left right = true := by
  intro fuel
  induction fuel with
  | zero =>
    intro left right k _ hlk hkr _ _ hsz
    exfalso
    omega
  | succ fuel ih =>
    intro left right k hl hlk hkr hr hk hsz
    have hlr : left ≤ right := le_trans hlk hkr
    rw [bsAux, if_pos hlr]
    obtain ⟨hm1, hm2⟩ := bsAux_mid_bounds hlr
    set mid : Int := left + (right - left) / 2 with hmid
    by_cases hc : strcasecmp_custom (dict.getD mid.toNat []) w = 0
    · rw [if_pos hc]
    · rw [if_neg hc]
      by_cases hlt : strcasecmp_custom (dict.getD mid.toNat []) w < 0
      · rw [if_pos hlt]
        have hkmid : mid < (k : Int) := by
          by_contra hle
          push_neg at hle
          rcases lt_or_eq_of_le hle with hlt2 | heq
          · have hkm : k < mid.toNat := by omega
            have hmlen : mid.toNat < dict.length := by omega
            have hle0 := sorted_getD_le hs hkm hmlen
            have := strcasecmp_lt_of_le_of_lt hle0 hlt
            omega
          · rw [show mid.toNat = k by omega] at hc
            exact hc hk
        exact ih (mid + 1) right k (by omega) (by omega) hkr hr hk (by omega)
      · rw [if_neg hlt]
        have hmidk : (k : Int) < mid := by
          by_contra hle
          push_neg at hle
          rcases lt_or_eq_of_le hle with hlt2 | heq
          · have hmk : mid.toNat < k := by omega
            have hklen : k < dict.length := by omega
            have hle0 := sorted_getD_le hs hmk hklen
            have hle1 : strcasecmp_custom (dict.getD k []) w ≤ 0 := le_of_eq hk
            have := strcasecmp_trans_le hle0 hle1
            omega
          · rw [show mid.toNat = k by omega] at hc
            exact hc hk
        exact ih left (mid - 1) k hl hlk (by omega) (by omega) hk (by omega)

theorem getD_mem {dict : List Word} {i : Nat} (h : i < dict.length) :
    dict.getD i [] ∈ dict := by
  rw [List.getD_eq_getElem dict [] h]
  exact List.getElem_mem h

/-- Correctness of the dictionary binary search on a `qsort`-sorted array:
it reports exactly case-insensitive membership. -/
theorem BinarySearchDictionary_iff {dict : List Word} {w : Word}
    (hs : DictSorted dict) :
    BinarySearchDictionary dict w = true ↔ memCF dict w := by
  constructor
  · intro h
    obtain ⟨i, hi, hc⟩ := bsAux_sound (dict.length + 1) 0 ((dict.length : Int) - 1)
      (by omega) (by omega) h
    exact ⟨dict.getD i [], getD_mem hi, strcasecmp_zero_iff.mp hc⟩
  · rintro ⟨x, hx, hfold⟩
    obtain ⟨⟨k, hk⟩, rfl⟩ := List.mem_iff_get.mp hx
    have hk' : strcasecmp_custom (dict.getD k []) w = 0 := by
      rw [List.getD_eq_getElem dict [] hk]
      exact strcasecmp_zero_iff.mpr (by simpa [List.get_eq_getElem] using hfold)
    exact bsAux_complete hs (dict.length + 1) 0 ((dict.length : Int) - 1) k
      (by omega) (by omega) (by omega) (by omega) hk' (by omega)

/-- The binary search only reports case-insensitively present words, sorted
array or not. -/
theorem BinarySearchDictionary_sound {dict : List Word} {w : Word}
    (h : BinarySearchDictionary dict w = true) : memCF dict w := by
  obtain ⟨i, hi, hc⟩ := bsAux_sound (dict.length + 1) 0 ((dict.length : Int) - 1)
    (by omega) (by omega) h
  exact ⟨dict.getD i [], getD_mem hi, strcasecmp_zero_iff.mp hc⟩

/-- A recorded misspelled word (`MisspelledWord` in `spellchecker.h`): the
captured word text (at most 255 bytes, see the tokenizer) and the half-open
byte interval `[startPos, endPos)` into the checked text. -/
structure MisspelledWord where
  word : List Nat
  startPos : Nat
  endPos : Nat
deriving DecidableEq

/-- The engine state (`SpellChecker` in `spellchecker.h`): the three word
collections, the last misspelled list and the two flags.  The `capacity`
fields of the C struct are allocation bookkeeping with no observable content
and are not modelled. -/
structure SpellChecker where
  enabled : Bool
  suggestionsEnabled : Bool
  mainDictionary : List Word
  userDictionary : List Word
  ignoredWords : List Word
  misspelled : List MisspelledWord
deriving DecidableEq

/-- `SpellChecker_Create` (lines 85-112), allocation-success path: both flags
set, all collections empty. -/
def SpellChecker_Create : SpellChecker :=
  { enabled := true
    suggestionsEnabled := true
    mainDictionary := []
    userDictionary := []
    ignoredWords := []
    misspelled := [] }

/-- Remove trailing whitespace in place (the `while (len > 0 && isspace(...))`
loop of both load functions). -/
def trimTrailing (line : List Nat) : List Nat :=
  (line.reverse.dropWhile isspace).reverse

/-- One iteration of the `SpellChecker_LoadDictionary` read loop (lines
147-176): trim, skip empty lines and lines starting with `#`, else append. -/
def mainLoadLine (dict : List Word) (line : List Nat) : List Word :=
  match trimTrailing line with
  | [] => dict
  | c :: t => if c = 35 then dict else dict ++ [c :: t]

/-- One iteration of the `SpellChecker_LoadUserDictionary` read loop (lines
198-224): trim, skip empty lines, else append (no comment rule). -/
def userLoadLine (dict : List Word) (line : List Nat) : List Word :=
  match trimTrailing line with
  | [] => dict
  | c :: t => dict ++ [c :: t]

/-- Model of `SpellChecker_LoadDictionary` (lines 138-186): `none` models a
file that cannot be opened (returns failure); otherwise each line is
processed, the whole array is `qsort`ed when non-empty, and the returned
status is `count > 0`. -/
def SpellChecker_LoadDictionary (sc : SpellChecker)
    (file : Option (List (List Nat))) : SpellChecker × Bool :=
  match file with
  | none => (sc, false)
  | some lines =>
    let dict := lines.foldl mainLoadLine sc.mainDictionary
    let dict' := if 0 < dict.length then sortDict dict else dict
    ({ sc with mainDictionary := dict' }, decide (0 < dict.length))

/-- Model of `SpellChecker_LoadUserDictionary` (lines 189-234): a file that
cannot be opened is success with no change; otherwise lines are appended
(comments not skipped), the array is `qsort`ed when non-empty, and the call
returns success. -/
def SpellChecker_LoadUserDictionary (sc : SpellChecker)
    (file : Option (List (List Nat))) : SpellChecker × Bool :=
  match file with
  | none => (sc, true)
  | some lines =>
    let dict := lines.foldl userLoadLine sc.userDictionary
    let dict' := if 0 < dict.length then sortDict dict else dict
    ({ sc with userDictionary := dict' }, true)

/-- Model of `SpellChecker_IsWordCorrect` (lines 237-250).  The argument is
`Option Word` so that the `!word` (NULL) guard is representable; `some []`
is the empty string (`strlen(word) == 0`). -/
def SpellChecker_IsWordCorrect (sc : SpellChecker) (word : Option Word) : Bool :=
  match word with
  | none => true
  | some w =>
    if w = [] then true
    else if BinarySearchDictionary sc.ignoredWords w then true
    else if BinarySearchDictionary sc.mainDictionary w then true
    else if BinarySearchDictionary sc.userDictionary w then true
    else false

/-- The word-capture loop of `SpellChecker_Check` (lines 301-305): take
alphabetic bytes while fewer than `n` have been captured (the C bound is
`wordLen < sizeof(word) - 1` with a 256-byte buffer, i.e. at most 255 bytes
in total; the head byte is captured by the caller, so `n = 254` there).
Returns the captured bytes and the uncaptured remainder of the text. -/
def takeWord : Nat → List Nat → List Nat × List Nat
  | _, [] => ([], [])
  | 0, rest => ([], rest)
  | n + 1, c :: rest =>
    if isalpha c then
      let p := takeWord n rest
      (c :: p.1, p.2)
    else ([], c :: rest)

/-- The scanning loop of `SpellChecker_Check` (lines 287-324), parametrised by
the correctness test so that the state it reads is explicit: skip
non-alphabetic bytes, capture a word of at most 255 bytes, record it when the
test fails, continue at the first uncaptured byte.  `fuel` bounds the number
of iterations (each consumes at least one byte, so `text.length` suffices);
it only models the C loop's termination. -/
def checkLoop (isCorrect : List Nat → Bool) : Nat → List Nat → Nat → List MisspelledWord
  | 0, _, _ => []
  | _, [], _ => []
  | fuel + 1, c :: rest, pos =>
    if isalpha c then
      let w := c :: (takeWord 254 rest).1
      let r := (takeWord 254 rest).2
      (if isCorrect w then [] else [⟨w, pos, pos + w.length⟩]) ++
        checkLoop isCorrect fuel r (pos + w.length)
    else checkLoop isCorrect fuel rest (pos + 1)

/-- Model of `SpellChecker_Check` (lines 253-325).  `none` models a NULL
`text` pointer.  Every branch replaces the misspelled list and leaves the
rest of the engine untouched. -/
def SpellChecker_Check (sc : SpellChecker) (text : Option (List Nat)) : SpellChecker :=
  if sc.enabled = false then { sc with misspelled := [] }
  else
    match text with
    | none => { sc with misspelled := [] }
    | some t =>
      if t = [] then { sc with misspelled := [] }
      else if t.all isspace then { sc with misspelled := [] }
      else
        { sc with misspelled := checkLoop (fun w => SpellChecker_IsWordCorrect sc (some w)) t.length t 0 }

/-- The `d[i] = i` initialisation loop of `LevenshteinDistance` (lines 37-39),
generalised to an arbitrary first value: `ascFrom a m = [a, a+1, ..., a+m-1]`. -/
def ascFrom : Nat → Nat → List Nat
  | _, 0 => []
  | a, m + 1 => a :: ascFrom (a + 1) m

/-- The inner loop of `LevenshteinDistance` (lines 45-51): update the rolling
row.  `x` is `s1[i-1]`; at each position, `left` is the already-computed new
`d[j-1]`, `diag` is `prev_diag` (the old `d[j-1]`), `up` is the old `d[j]`
and `c` is `s2[j-1]`.  The new `d[j]` is
`min(min(old d[j]+1, new d[j-1]+1), prev_diag+cost)` exactly as in the C. -/
def levRowStep (x : Nat) : Nat → Nat → List Nat → List Nat → List Nat
  | _, _, [], _ => []
  | _, _, _ :: _, [] => []
  | left, diag, up :: ups, c :: cs =>
    (min (min (up + 1) (left + 1)) (diag + (if x = c then 0 else 1))) ::
      levRowStep x (min (min (up + 1) (left + 1)) (diag + (if x = c then 0 else 1))) up ups cs

/-- The outer loop of `LevenshteinDistance` (lines 41-52): one `levRowStep`
per byte of `s1`; on entry to iteration `i` the row head is the old
`d[0] = i - 1`, the new `d[0]` is `i` and `prev_diag` starts at `i - 1`. -/
def levFold (s2 : List Nat) : List Nat → List Nat → List Nat
  | [], row => row
  | x :: xs, row =>
    match row with
    | [] => []
    | d0 :: ds => levFold s2 xs ((d0 + 1) :: levRowStep x (d0 + 1) d0 ds s2)

/-- Model of `LevenshteinDistance` (lines 27-57), allocation-success path.
The C returns `int`; every value computed is a nonnegative count, so the
model uses `Nat`. -/
def LevenshteinDistance (s1 s2 : List Nat) : Nat :=
  if s1 = [] then s2.length
  else if s2 = [] then s1.length
  else (levFold s2 s1 (ascFrom 0 (s2.length + 1))).getLastD 0

/-- `descL k = [k-1, k-2, ..., 1, 0]`; used to describe the DP row reached
when `LevenshteinDistance` is run on two equal strings. -/
def descL : Nat → List Nat
  | 0 => []
  | k + 1 => k :: descL k

theorem descL_map_add_one (k : Nat) :
    (descL k).map (fun v => v + 1) ++ [0] = descL (k + 1) := by
  induction k with
  | zero => rfl
  | succ k ih => simp [descL] at ih ⊢; exact ih

theorem ascFrom_length (a m : Nat) : (ascFrom a m).length = m := by
  induction m generalizing a with
  | zero => rfl
  | succ m ih => simp [ascFrom, ih]

theorem levRowStep_desc (x : Nat) :
    ∀ (k : Nat) (rest cs : List Nat), k + 1 ≤ cs.length →
      levRowStep x (k + 2) (k + 1) (descL (k + 1) ++ rest) cs
        = (descL (k + 1)).map (fun v => v + 1) ++ levRowStep x 1 0 rest (cs.drop (k + 1)) := by
  intro k
  induction k with
  | zero =>
    intro rest cs hcs
    cases cs with
    | nil => simp at hcs
    | cons c cs' =>
      show levRowStep x 2 1 (0 :: rest) (c :: cs') = _
      rw [levRowStep]
      have hv : min (min (0 + 1) (2 + 1)) (1 + if x = c then 0 else 1) = 1 := by
        by_cases h : x = c <;> simp [h]
      rw [hv]
      simp [descL]
  | succ k ih =>
    intro rest cs hcs
    cases cs with
    | nil => simp at hcs
    | cons c cs' =>
      show levRowStep x (k + 3) (k + 2) ((k + 1) :: (descL (k + 1) ++ rest)) (c :: cs') = _
      rw [levRowStep]
      have hv : min (min ((k + 1) + 1) ((k + 3) + 1)) ((k + 2) + if x = c then 0 else 1)
          = k + 2 := by
        by_cases h : x = c <;> simp [h]
      rw [hv]
      have hcs' : k + 1 ≤ cs'.length := by simp at hcs; exact hcs
      rw [ih rest cs' hcs']
      simp [descL]

theorem levRowStep_asc (x : Nat) :
    ∀ (m b : Nat) (cs : List Nat), m ≤ cs.length →
      levRowStep x b (b + 1) (ascFrom (b + 2) m) cs = ascFrom (b + 1) m := by
  intro m
  induction m with
  | zero => intro b cs _; simp [ascFrom, levRowStep]
  | succ m ih =>
    intro b cs hcs
    cases cs with
    | nil => simp at hcs
    | cons c cs' =>
      show levRowStep x b (b + 1) ((b + 2) :: ascFrom (b + 3) m) (c :: cs') = _
      rw [levRowStep]
      have hv : min (min ((b + 2) + 1) (b + 1)) ((b + 1) + if x = c then 0 else 1)
          = b + 1 := by
        by_cases h : x = c <;> simp [h]
      rw [hv]
      have hcs' : m ≤ cs'.length := by simp at hcs; exact hcs
      have := ih (b + 1) cs' hcs'
      simpa [ascFrom] using this

theorem levRowStep_self (w : List Nat) (i : Nat) (hi : i < w.length) :
    levRowStep (w.getD i 0) (i + 1) i (descL i ++ ascFrom 1 (w.length - i)) w
      = descL (i + 1) ++ ascFrom 1 (w.length - (i + 1)) := by
  cases i with
  | zero =>
    match w, hi with
    | c :: w', _ =>
      have hn : (c :: w').length - 0 = w'.length + 1 := by simp
      rw [hn]
      show levRowStep c 1 0 ([] ++ (1 :: ascFrom 2 w'.length)) (c :: w') = _
      rw [List.nil_append, levRowStep]
      have hv : min (min (1 + 1) (1 + 1)) (0 + if c = c then 0 else 1) = 0 := by simp
      rw [hv]
      rw [levRowStep_asc c w'.length 0 w' (le_refl _)]
      simp [descL]
  | succ k =>
    have hk1 : k + 1 ≤ w.length := le_of_lt hi
    have hdrop : w.drop (k + 1) = w.getD (k + 1) 0 :: w.drop (k + 2) := by
      rw [List.getD_eq_getElem w 0 hi]
      exact List.drop_eq_getElem_cons hi
    have hm : w.length - (k + 1) = (w.length - (k + 2)) + 1 := by omega
    rw [levRowStep_desc (w.getD (k + 1) 0) k (ascFrom 1 (w.length - (k + 1))) w hk1]
    rw [hdrop, hm]
    show _ ++ levRowStep (w.getD (k + 1) 0) 1 0 (1 :: ascFrom 2 (w.length - (k + 2)))
        (w.getD (k + 1) 0 :: w.drop (k + 2)) = _
    rw [levRowStep]
    have hv : min (min (1 + 1) (1 + 1))
        (0 + if w.getD (k + 1) 0 = w.getD (k + 1) 0 then 0 else 1) = 0 := by simp
    rw [hv]
    have hlen2 : w.length - (k + 2) ≤ (w.drop (k + 2)).length := by
      simp [List.length_drop]
    rw [levRowStep_asc (w.getD (k + 1) 0) (w.length - (k + 2)) 0 (w.drop (k + 2)) hlen2]
    simp [← descL_map_add_one, List.append_assoc]

theorem levFold_self (w : List Nat) :
    ∀ (m j : Nat), w.length - j = m → j ≤ w.length →
      levFold w (w.drop j) (j :: (descL j ++ ascFrom 1 (w.length - j)))
        = w.length :: descL w.length := by
  intro m
  induction m with
  | zero =>
    intro j hm hj
    have : j = w.length := by omega
    subst this
    simp [levFold, ascFrom]
  | succ m ih =>
    intro j hm hj
    have hjlt : j < w.length := by omega
    have hdrop : w.drop j = w.getD j 0 :: w.drop (j + 1) := by
      rw [List.getD_eq_getElem w 0 hjlt]
      exact List.drop_eq_getElem_cons hjlt
    rw [hdrop]
    show levFold w (w.drop (j + 1))
        ((j + 1) :: levRowStep (w.getD j 0) (j + 1) j (descL j ++ ascFrom 1 (w.length - j)) w)
      = _
    rw [levRowStep_self w j hjlt]
    exact ih (j + 1) (by omega) (by omega)

theorem getLastD_descL : ∀ (k : Nat) (d : Nat), (descL (k + 1)).getLastD d = 0 := by
  intro k
  induction k with
  | zero => intro d; rfl
  | succ k ih =>
    intro d
    show ((k + 1) :: descL (k + 1)).getLastD d = 0
    rw [List.getLastD_cons]
    exact ih (k + 1)

/-- The DP of `LevenshteinDistance` yields 0 on two equal strings. -/
theorem LevenshteinDistance_self (w : List Nat) : LevenshteinDistance w w = 0 := by
  cases w with
  | nil => rfl
  | cons c w' =>
    unfold LevenshteinDistance
    rw [if_neg (by simp), if_neg (by simp)]
    have h0 : ascFrom 0 ((c :: w').length + 1)
        = 0 :: (descL 0 ++ ascFrom 1 ((c :: w').length - 0)) := by
      simp [ascFrom, descL]
    rw [h0]
    have := levFold_self (c :: w') ((c :: w').length) 0 (by simp) (by simp)
    rw [List.drop_zero] at this
    rw [this]
    have hlen : (c :: w').length = w'.length + 1 := by simp
    rw [hlen, List.getLastD_cons, getLastD_descL]

/-- The candidate-collection loop of `SpellChecker_GetSuggestions` (lines
345-352): scan the main dictionary in order while fewer than 10 candidates
are collected, keeping entries whose distance to `word` is in `(0, 2]`
together with that distance (`maxDistance` is 2, line 342). -/
def collectSuggestions (word : Word) : List Word → Nat → List (Word × Nat)
  | [], _ => []
  | d :: ds, cnt =>
    if cnt < 10 then
      if 0 < LevenshteinDistance word d ∧ LevenshteinDistance word d ≤ 2 then
        (d, LevenshteinDistance word d) :: collectSuggestions word ds (cnt + 1)
      else collectSuggestions word ds cnt
    else []

/-- One pass of the inner `j` loop of the suggestion sort (lines 356-362),
starting from current `suggestions[i] = cur`: whenever a later entry has a
strictly smaller distance it is swapped into position `i` (the displaced
entry taking its place).  Returns the final `suggestions[i]` and the
resulting suffix. -/
def selectPass : (Word × Nat) → List (Word × Nat) → (Word × Nat) × List (Word × Nat)
  | cur, [] => (cur, [])
  | cur, y :: ys =>
    if y.2 < cur.2 then
      ((selectPass y ys).1, cur :: (selectPass y ys).2)
    else
      ((selectPass cur ys).1, y :: (selectPass cur ys).2)

/-- The outer `i` loop of the suggestion sort (lines 355-363).  `fuel` is the
loop-iteration bound (the C loop runs over the array indices; `l.length`
suffices because `selectPass` preserves the suffix length). -/
def selSortFuel : Nat → List (Word × Nat) → List (Word × Nat)
  | 0, l => l
  | _ + 1, [] => []
  | fuel + 1, y :: ys =>
    (selectPass y ys).1 :: selSortFuel fuel (selectPass y ys).2

/-- The suggestion sort of `SpellChecker_GetSuggestions` (lines 355-363). -/
def selSort (l : List (Word × Nat)) : List (Word × Nat) := selSortFuel l.length l

/-- Model of `SpellChecker_GetSuggestions` (lines 328-391), allocation-success
path: collect at most 10 candidates, sort them by distance with the
swap-based selection sort, truncate to 5, and return the words together with
the returned `*count`. -/
def SpellChecker_GetSuggestions (sc : SpellChecker) (word : Word) : List Word × Nat :=
  ((selSort (collectSuggestions word sc.mainDictionary 0)).take 5).map Prod.fst |>
    fun res => (res, res.length)

/-- Model of `SpellChecker_AddToUserDictionary` (lines 425-450): no-op when
the binary search already finds the word, otherwise append and `qsort`. -/
def SpellChecker_AddToUserDictionary (sc : SpellChecker) (word : Word) : SpellChecker :=
  if BinarySearchDictionary sc.userDictionary word then sc
  else { sc with userDictionary := sortDict (sc.userDictionary ++ [word]) }

theorem selectPass_length (cur : Word × Nat) (ys : List (Word × Nat)) :
    (selectPass cur ys).2.length = ys.length := by
  induction ys generalizing cur with
  | nil => rfl
  | cons y ys ih =>
    show (selectPass cur (y :: ys)).2.length = ys.length + 1
    rw [selectPass]
    by_cases h : y.2 < cur.2
    · simp [h, ih y]
    · simp [h, ih cur]

theorem selectPass_perm (cur : Word × Nat) (ys : List (Word × Nat)) :
    ((selectPass cur ys).1 :: (selectPass cur ys).2).Perm (cur :: ys) := by
  induction ys generalizing cur with
  | nil => rfl
  | cons y ys ih =>
    by_cases h : y.2 < cur.2
    · rw [selectPass, if_pos h]
      have p1 : ((selectPass y ys).1 :: cur :: (selectPass y ys).2).Perm
          (cur :: (selectPass y ys).1 :: (selectPass y ys).2) :=
        List.Perm.swap cur (selectPass y ys).1 (selectPass y ys).2
      exact p1.trans ((ih y).cons cur)
    · rw [selectPass, if_neg h]
      have p1 : ((selectPass cur ys).1 :: y :: (selectPass cur ys).2).Perm
          (y :: (selectPass cur ys).1 :: (selectPass cur ys).2) :=
        List.Perm.swap y (selectPass cur ys).1 (selectPass cur ys).2
      have p3 : (y :: cur :: ys).Perm (cur :: y :: ys) := List.Perm.swap cur y ys
      exact p1.trans (((ih cur).cons y).trans p3)

theorem selectPass_min (cur : Word × Nat) (ys : List (Word × Nat)) :
    (selectPass cur ys).1.2 ≤ cur.2 ∧
      ∀ z ∈ (selectPass cur ys).2, (selectPass cur ys).1.2 ≤ z.2 := by
  induction ys generalizing cur with
  | nil => exact ⟨le_refl _, by simp [selectPass]⟩
  | cons y ys ih =>
    by_cases h : y.2 < cur.2
    · rw [selectPass, if_pos h]
      obtain ⟨h1, h2⟩ := ih y
      refine ⟨le_trans h1 (le_of_lt h), ?_⟩
      intro z hz
      rcases List.mem_cons.mp hz with rfl | hz
      · exact le_trans h1 (le_of_lt h)
      · exact h2 z hz
    · rw [selectPass, if_neg h]
      obtain ⟨h1, h2⟩ := ih cur
      refine ⟨h1, ?_⟩
      intro z hz
      rcases List.mem_cons.mp hz with rfl | hz
      · exact le_trans h1 (not_lt.mp h)
      · exact h2 z hz

theorem selSortFuel_perm :
    ∀ (fuel : Nat) (l : List (Word × Nat)), (selSortFuel fuel l).Perm l := by
  intro fuel
  induction fuel with
  | zero => intro l; rfl
  | succ fuel ih =>
    intro l
    cases l with
    | nil => rfl
    | cons y ys =>
      show ((selectPass y ys).1 :: selSortFuel fuel (selectPass y ys).2).Perm (y :: ys)
      exact (((ih (selectPass y ys).2).cons (selectPass y ys).1).trans (selectPass_perm y ys))

theorem selSortFuel_sorted :
    ∀ (fuel : Nat) (l : List (Word × Nat)), l.length ≤ fuel →
      List.Pairwise (fun a b => a.2 ≤ b.2) (selSortFuel fuel l) := by
  intro fuel
  induction fuel with
  | zero =>
    intro l hl
    have : l = [] := List.eq_nil_of_length_eq_zero (by omega)
    subst this
    exact List.Pairwise.nil
  | succ fuel ih =>
    intro l hl
    cases l with
    | nil => exact List.Pairwise.nil
    | cons y ys =>
      show List.Pairwise _ ((selectPass y ys).1 :: selSortFuel fuel (selectPass y ys).2)
      refine List.pairwise_cons.mpr ⟨?_, ?_⟩
      · intro z hz
        have hz2 : z ∈ (selectPass y ys).2 :=
          (selSortFuel_perm fuel (selectPass y ys).2).mem_iff.mp hz
        exact (selectPass_min y ys).2 z hz2
      · refine ih (selectPass y ys).2 ?_
        rw [selectPass_length]
        simp at hl
        omega

theorem selSort_perm (l : List (Word × Nat)) : (selSort l).Perm l :=
  selSortFuel_perm l.length l

theorem selSort_sorted (l : List (Word × Nat)) :
    List.Pairwise (fun a b => a.2 ≤ b.2) (selSort l) :=
  selSortFuel_sorted l.length l (le_refl _)

/-- Every collected candidate carries its true distance, which lies in
`(0, 2]`. -/
theorem collectSuggestions_mem (word : Word) :
    ∀ (ds : List Word) (cnt : Nat) (p : Word × Nat),
      p ∈ collectSuggestions word ds cnt →
      p.2 = LevenshteinDistance word p.1 ∧ 0 < p.2 ∧ p.2 ≤ 2 := by
  intro ds
  induction ds with
  | nil => intro cnt p hp; simp [collectSuggestions] at hp
  | cons d ds ih =>
    intro cnt p hp
    rw [collectSuggestions] at hp
    by_cases h10 : cnt < 10
    · rw [if_pos h10] at hp
      by_cases hq : 0 < LevenshteinDistance word d ∧ LevenshteinDistance word d ≤ 2
      · rw [if_pos hq] at hp
        rcases List.mem_cons.mp hp with rfl | hp
        · exact ⟨rfl, hq⟩
        · exact ih (cnt + 1) p hp
      · rw [if_neg hq] at hp
        exact ih cnt p hp
    · rw [if_neg h10] at hp
      simp at hp

/-- Once 10 candidates are collected, the rest of the dictionary is never
examined. -/
theorem collectSuggestions_append (word : Word) :
    ∀ (ds es : List Word) (cnt : Nat),
      cnt + (collectSuggestions word ds cnt).length = 10 →
      collectSuggestions word (ds ++ es) cnt = collectSuggestions word ds cnt := by
  intro ds
  induction ds with
  | nil =>
    intro es cnt h
    simp [collectSuggestions] at h
    cases es with
    | nil => rfl
    | cons e es' =>
      show collectSuggestions word (e :: es') cnt = collectSuggestions word [] cnt
      simp only [collectSuggestions]
      rw [if_neg (by omega)]
  | cons d ds ih =>
    intro es cnt h
    rw [List.cons_append]
    by_cases h10 : cnt < 10
    · by_cases hq : 0 < LevenshteinDistance word d ∧ LevenshteinDistance word d ≤ 2
      · rw [collectSuggestions, if_pos h10, if_pos hq] at h
        simp only [collectSuggestions]
        rw [if_pos h10, if_pos hq, if_pos h10, if_pos hq]
        rw [ih es (cnt + 1) (by simp at h; omega)]
      · rw [collectSuggestions, if_pos h10, if_neg hq] at h
        simp only [collectSuggestions]
        rw [if_pos h10, if_neg hq, if_pos h10, if_neg hq]
        rw [ih es cnt h]
    · simp only [collectSuggestions]
      rw [if_neg h10, if_neg h10]

theorem sortDict_mem {l : List Word} {x : Word} (hx : x ∈ l) : x ∈ sortDict l :=
  (sortDict_perm l).mem_iff.mpr hx

theorem add_user_sorted {sc : SpellChecker} {w : Word}
    (hs : DictSorted sc.userDictionary) :
    DictSorted (SpellChecker_AddToUserDictionary sc w).userDictionary := by
  unfold SpellChecker_AddToUserDictionary
  by_cases h : BinarySearchDictionary sc.userDictionary w
  · rw [if_pos h]; exact hs
  · rw [if_neg h]; exact sortDict_sorted _

theorem add_user_mem_self (sc : SpellChecker) (w : Word) :
    memCF (SpellChecker_AddToUserDictionary sc w).userDictionary w := by
  unfold SpellChecker_AddToUserDictionary
  by_cases h : BinarySearchDictionary sc.userDictionary w
  · rw [if_pos h]
    exact BinarySearchDictionary_sound (by simpa using h)
  · rw [if_neg h]
    exact ⟨w, sortDict_mem (List.mem_append_right _ (List.mem_singleton.mpr rfl)), rfl⟩

theorem add_user_mem_mono {sc : SpellChecker} {v : Word} (w : Word)
    (hv : memCF sc.userDictionary v) :
    memCF (SpellChecker_AddToUserDictionary sc w).userDictionary v := by
  obtain ⟨x, hx, hfold⟩ := hv
  unfold SpellChecker_AddToUserDictionary
  by_cases h : BinarySearchDictionary sc.userDictionary w
  · rw [if_pos h]; exact ⟨x, hx, hfold⟩
  · rw [if_neg h]
    exact ⟨x, sortDict_mem (List.mem_append_left _ hx), hfold⟩

theorem foldl_add_user {v : Word} :
    ∀ (ws : List Word) (sc : SpellChecker), DictSorted sc.userDictionary →
      memCF sc.userDictionary v →
      DictSorted (ws.foldl SpellChecker_AddToUserDictionary sc).userDictionary ∧
        memCF (ws.foldl SpellChecker_AddToUserDictionary sc).userDictionary v := by
  intro ws
  induction ws with
  | nil => intro sc hs hv; exact ⟨hs, hv⟩
  | cons w ws ih =>
    intro sc hs hv
    exact ih (SpellChecker_AddToUserDictionary sc w) (add_user_sorted hs)
      (add_user_mem_mono w hv)

theorem takeWord_fst_length : ∀ (n : Nat) (l : List Nat), (takeWord n l).1.length ≤ n := by
  intro n l
  induction l generalizing n with
  | nil => cases n <;> simp [takeWord]
  | cons c rest ih =>
    cases n with
    | zero => simp [takeWord]
    | succ n =>
      rw [takeWord]
      by_cases h : isalpha c
      · rw [if_pos h]
        simpa using ih n
      · rw [if_neg h]
        simp

/-- Every token the scanning loop records covers exactly the bytes it stored:
its end offset is its start offset plus the length of the captured word, and
at most 255 bytes are captured. -/
theorem checkLoop_mem (isCorrect : List Nat → Bool) :
    ∀ (fuel : Nat) (text : List Nat) (pos : Nat) (tok : MisspelledWord),
      tok ∈ checkLoop isCorrect fuel text pos →
      tok.endPos = tok.startPos + tok.word.length ∧ tok.word.length ≤ 255 := by
  intro fuel
  induction fuel with
  | zero => intro text pos tok h; simp [checkLoop] at h
  | succ fuel ih =>
    intro text pos tok h
    cases text with
    | nil => simp [checkLoop] at h
    | cons c rest =>
      rw [checkLoop] at h
      by_cases ha : isalpha c
      · rw [if_pos ha] at h
        rcases List.mem_append.mp h with h1 | h2
        · by_cases hc : isCorrect (c :: (takeWord 254 rest).1)
          · rw [if_pos hc] at h1
            simp at h1
          · rw [if_neg hc] at h1
            have : tok = ⟨c :: (takeWord 254 rest).1, pos,
                pos + (c :: (takeWord 254 rest).1).length⟩ := by
              simpa using h1
            subst this
            refine ⟨rfl, ?_⟩
            have := takeWord_fst_length 254 rest
            simp
            omega
        · exact ih _ _ tok h2
      · rw [if_neg ha] at h
        exact ih _ _ tok h

/-- `SpellChecker_Check` only ever replaces the misspelled list. -/
theorem check_frame (sc : SpellChecker) (text : Option (List Nat)) :
    ∃ m, SpellChecker_Check sc text = { sc with misspelled := m } := by
  unfold SpellChecker_Check
  split
  · exact ⟨[], rfl⟩
  · split
    · exact ⟨[], rfl⟩
    · split
      · exact ⟨[], rfl⟩
      · split
        · exact ⟨[], rfl⟩
        · exact ⟨_, rfl⟩

/-- `SpellChecker_Check` reads no part of the state it writes: its result is
unchanged if the incoming misspelled list differs. -/
theorem check_misspelled_irrel (sc : SpellChecker) (m : List MisspelledWord)
    (text : Option (List Nat)) :
    SpellChecker_Check { sc with misspelled := m } text = SpellChecker_Check sc text := rfl

theorem isspace_35 : isspace 35 = false := rfl

theorem trimTrailing_hash (rest : List Nat) :
    trimTrailing (35 :: rest) = 35 :: trimTrailing rest := by
  unfold trimTrailing
  rw [List.reverse_cons, List.dropWhile_append]
  by_cases h : (List.dropWhile isspace rest.reverse).isEmpty = true
  · rw [if_pos h]
    rw [List.isEmpty_iff] at h
    rw [h]
    simp [List.dropWhile, isspace_35]
  · rw [if_neg h]
    simp [List.dropWhile, isspace_35]

/-- C1: for every non-empty word `w`, `SpellChecker_IsWordCorrect` returns
true iff `w` is present case-insensitively in the ignore list, the main
dictionary or the user dictionary (the disjunction captures the fixed
first-match-wins precedence: any hit makes the word correct); the empty
string and a NULL word are always correct.  The sortedness hypotheses are the
invariant the engine maintains on all three collections (every load/insert
re-sorts before any lookup). -/
theorem isWordCorrect_iff_membership (sc : SpellChecker)
    (h1 : DictSorted sc.ignoredWords) (h2 : DictSorted sc.mainDictionary)
    (h3 : DictSorted sc.userDictionary) :
    (∀ w : Word, w ≠ [] →
      (SpellChecker_IsWordCorrect sc (some w) = true ↔
        (memCF sc.ignoredWords w ∨ memCF sc.mainDictionary w ∨ memCF sc.userDictionary w))) ∧
    SpellChecker_IsWordCorrect sc (some []) = true ∧
    SpellChecker_IsWordCorrect sc none = true := by
  refine ⟨?_, by simp [SpellChecker_IsWordCorrect], rfl⟩
  intro w hw
  have e : SpellChecker_IsWordCorrect sc (some w)
      = (BinarySearchDictionary sc.ignoredWords w ||
          (BinarySearchDictionary sc.mainDictionary w ||
            BinarySearchDictionary sc.userDictionary w)) := by
    simp only [SpellChecker_IsWordCorrect]
    rw [if_neg hw]
    by_cases hi : BinarySearchDictionary sc.ignoredWords w <;>
      by_cases hm : BinarySearchDictionary sc.mainDictionary w <;>
        by_cases hu : BinarySearchDictionary sc.userDictionary w <;>
          simp [hi, hm, hu]
  rw [e]
  simp only [Bool.or_eq_true]
  rw [BinarySearchDictionary_iff h1, BinarySearchDictionary_iff h2,
    BinarySearchDictionary_iff h3]

/-- C1 witness: on an engine whose main dictionary holds "hi", the word "HI"
is reported correct. -/
theorem isWordCorrect_iff_membership_witness :
    SpellChecker_IsWordCorrect
      { SpellChecker_Create with mainDictionary := [[104, 105]] } (some [72, 73]) = true :=
  ((isWordCorrect_iff_membership { SpellChecker_Create with mainDictionary := [[104, 105]] }
      (by decide) (by decide) (by decide)).1 [72, 73] (by decide)).mpr
    (Or.inr (Or.inl (by decide)))

set_option maxRecDepth 4000 in
/-- C2 counterexample: a 256-byte alphabetic run (256 times `a`, no
dictionary entries) is recorded as TWO tokens, the first covering bytes
`[0, 255)` with end offset 255 — not as a single token with end offset 256 as
the claim states.  The capture loop stops after 255 bytes without advancing
past the rest of the run, so the remainder starts a new token. -/
theorem check_long_run_split :
    (SpellChecker_Check SpellChecker_Create (some (List.replicate 256 97))).misspelled
      = [⟨List.replicate 255 97, 0, 255⟩, ⟨[97], 255, 256⟩] := by decide

/-- C2 amended: an alphabetic run longer than 255 bytes is not recorded as a
single truncated token; the scanner instead splits it into successive tokens
of at most 255 bytes, and every recorded token's end offset equals its start
offset plus the length of its stored word text (the stored text always covers
its interval exactly). -/
theorem check_token_intervals (sc : SpellChecker) (text : List Nat)
    (tok : MisspelledWord)
    (h : tok ∈ (SpellChecker_Check sc (some text)).misspelled) :
    tok.endPos = tok.startPos + tok.word.length ∧ tok.word.length ≤ 255 := by
  unfold SpellChecker_Check at h
  split at h
  · simp at h
  · split at h
    · simp at h
    · split at h
      · simp at h
      · split at h
        · simp at h
        · exact checkLoop_mem _ _ _ _ _ h

/-- C2 amended, witness at a concrete token. -/
theorem check_token_intervals_witness :
    (⟨[97], 0, 1⟩ : MisspelledWord).endPos
        = (⟨[97], 0, 1⟩ : MisspelledWord).startPos
            + (⟨[97], 0, 1⟩ : MisspelledWord).word.length ∧
      (⟨[97], 0, 1⟩ : MisspelledWord).word.length ≤ 255 :=
  check_token_intervals SpellChecker_Create [97] ⟨[97], 0, 1⟩ (by decide)

/-- C3 counterexample: a main-dictionary file that opens fine but contains no
lines (all allocations trivially succeed) still makes
`SpellChecker_LoadDictionary` return failure on a fresh engine, because the
function returns `count > 0`. -/
theorem load_main_empty_file_fails :
    (SpellChecker_LoadDictionary SpellChecker_Create (some [])).2 = false := rfl

/-- C3 amended: `SpellChecker_LoadDictionary` fails on an unopenable file,
and on an opened file (allocations succeeding) it succeeds iff the main
dictionary ends up non-empty (`count > 0`), not unconditionally;
`SpellChecker_LoadUserDictionary` on an unopenable file returns success and
leaves the engine unchanged (zero entries added). -/
theorem load_status_semantics (sc : SpellChecker) (lines : List (List Nat)) :
    (SpellChecker_LoadDictionary sc none).2 = false ∧
    ((SpellChecker_LoadDictionary sc (some lines)).2 = true ↔
      lines.foldl mainLoadLine sc.mainDictionary ≠ []) ∧
    SpellChecker_LoadUserDictionary sc none = (sc, true) := by
  refine ⟨rfl, ?_, rfl⟩
  simp [SpellChecker_LoadDictionary, List.length_pos]

/-- C4: `SpellChecker_Check` is idempotent — checking the same text twice in
a row leaves the misspelled list (indeed the whole engine state) exactly as
after a single check. -/
theorem check_idempotent (sc : SpellChecker) (text : Option (List Nat)) :
    SpellChecker_Check (SpellChecker_Check sc text) text = SpellChecker_Check sc text := by
  obtain ⟨m, hm⟩ := check_frame sc text
  calc SpellChecker_Check (SpellChecker_Check sc text) text
      = SpellChecker_Check { sc with misspelled := m } text := by rw [hm]
    _ = SpellChecker_Check sc text := check_misspelled_irrel sc m text

/-- C5: `SpellChecker_GetSuggestions` returns at most 5 entries, every
returned candidate has edit distance in `(0, 2]` to the input word, and in
particular the exact input word (distance 0) is never returned. -/
theorem suggestions_bounded (sc : SpellChecker) (word : Word) :
    (SpellChecker_GetSuggestions sc word).1.length ≤ 5 ∧
    ∀ c ∈ (SpellChecker_GetSuggestions sc word).1,
      0 < LevenshteinDistance word c ∧ LevenshteinDistance word c ≤ 2 ∧ c ≠ word := by
  constructor
  · show (((selSort (collectSuggestions word sc.mainDictionary 0)).take 5).map Prod.fst).length ≤ 5
    rw [List.length_map, List.length_take]
    omega
  · intro c hc
    obtain ⟨p, hp, rfl⟩ := List.mem_map.mp hc
    have hp2 : p ∈ selSort (collectSuggestions word sc.mainDictionary 0) :=
      List.mem_of_mem_take hp
    have hp3 : p ∈ collectSuggestions word sc.mainDictionary 0 :=
      (selSort_perm _).mem_iff.mp hp2
    obtain ⟨he, h0, h2⟩ := collectSuggestions_mem word _ 0 p hp3
    rw [he] at h0 h2
    refine ⟨h0, h2, ?_⟩
    intro hcw
    rw [hcw, LevenshteinDistance_self] at h0
    exact lt_irrefl 0 h0

/-- C5 witness: with dictionary entry "ab" and input word "a" the returned
candidate "ab" is at distance 1 and differs from the input. -/
theorem suggestions_bounded_witness :
    (SpellChecker_GetSuggestions
        { SpellChecker_Create with mainDictionary := [[97, 98]] } [97]).1.length ≤ 5 ∧
      (0 < LevenshteinDistance [97] [97, 98] ∧ LevenshteinDistance [97] [97, 98] ≤ 2 ∧
        [97, 98] ≠ [97]) :=
  ⟨(suggestions_bounded { SpellChecker_Create with mainDictionary := [[97, 98]] } [97]).1,
    (suggestions_bounded { SpellChecker_Create with mainDictionary := [[97, 98]] } [97]).2
      [97, 98] (by decide)⟩

/-- C6 counterexample: with main dictionary ["bb", "bc", "zaa"] and input
word "aa" the distances are 2, 2, 1, and the returned list is
["zaa", "bc", "bb"]: the two equal-distance candidates appear in REVERSED
dictionary order ("bc" before "bb"), because the swap-based selection sort is
not stable.  The claim demands ["zaa", "bb", "bc"]. -/
theorem suggestions_tie_order_counterexample :
    (SpellChecker_GetSuggestions
        { SpellChecker_Create with mainDictionary := [[98, 98], [98, 99], [122, 97, 97]] }
        [97, 97]).1
      = [[122, 97, 97], [98, 99], [98, 98]] ∧
    LevenshteinDistance [97, 97] [98, 98] = 2 ∧
    LevenshteinDistance [97, 97] [98, 99] = 2 ∧
    LevenshteinDistance [97, 97] [122, 97, 97] = 1 := by decide

/-- C6 amended: the returned suggestion list is sorted ascending by edit
distance to the input word (truncation to 5 happens after sorting), but
candidates with equal distance may appear out of their original dictionary
order: the swap-based selection sort is not stable. -/
theorem suggestions_sorted_by_distance (sc : SpellChecker) (word : Word) :
    List.Pairwise (fun a b => LevenshteinDistance word a ≤ LevenshteinDistance word b)
      (SpellChecker_GetSuggestions sc word).1 := by
  show List.Pairwise _
    (((selSort (collectSuggestions word sc.mainDictionary 0)).take 5).map Prod.fst)
  rw [List.pairwise_map]
  have hs : List.Pairwise (fun a b : Word × Nat => a.2 ≤ b.2)
      ((selSort (collectSuggestions word sc.mainDictionary 0)).take 5) :=
    List.Pairwise.sublist (List.take_sublist 5 _) (selSort_sorted _)
  refine List.Pairwise.imp_of_mem ?_ hs
  intro a b ha hb hab
  have ha2 := collectSuggestions_mem word _ 0 a
    ((selSort_perm _).mem_iff.mp (List.mem_of_mem_take ha))
  have hb2 := collectSuggestions_mem word _ 0 b
    ((selSort_perm _).mem_iff.mp (List.mem_of_mem_take hb))
  rw [ha2.1, hb2.1] at hab
  exact hab

/-- C7: after `SpellChecker_AddToUserDictionary sc w` (user dictionary sorted,
as the engine maintains), the user dictionary is again sorted and the binary
search finds `w`; and both facts persist through any further sequence of
additions. -/
theorem user_dictionary_learn_persists (sc : SpellChecker) (w : Word) (ws : List Word)
    (hs : DictSorted sc.userDictionary) :
    DictSorted (SpellChecker_AddToUserDictionary sc w).userDictionary ∧
    BinarySearchDictionary (SpellChecker_AddToUserDictionary sc w).userDictionary w = true ∧
    DictSorted ((ws.foldl SpellChecker_AddToUserDictionary
        (SpellChecker_AddToUserDictionary sc w)).userDictionary) ∧
    BinarySearchDictionary ((ws.foldl SpellChecker_AddToUserDictionary
        (SpellChecker_AddToUserDictionary sc w)).userDictionary) w = true := by
  have hs1 := add_user_sorted (w := w) hs
  have hm1 := add_user_mem_self sc w
  obtain ⟨hs2, hm2⟩ := foldl_add_user ws (SpellChecker_AddToUserDictionary sc w) hs1 hm1
  exact ⟨hs1, (BinarySearchDictionary_iff hs1).mpr hm1, hs2,
    (BinarySearchDictionary_iff hs2).mpr hm2⟩

/-- C7 witness: learn "hi", then learn "a"; "hi" is still found and the user
dictionary stays sorted. -/
theorem user_dictionary_learn_persists_witness :
    DictSorted (SpellChecker_AddToUserDictionary SpellChecker_Create [104, 105]).userDictionary ∧
    BinarySearchDictionary
      (SpellChecker_AddToUserDictionary SpellChecker_Create [104, 105]).userDictionary
      [104, 105] = true ∧
    DictSorted (([[97]].foldl SpellChecker_AddToUserDictionary
        (SpellChecker_AddToUserDictionary SpellChecker_Create [104, 105])).userDictionary) ∧
    BinarySearchDictionary (([[97]].foldl SpellChecker_AddToUserDictionary
        (SpellChecker_AddToUserDictionary SpellChecker_Create [104, 105])).userDictionary)
      [104, 105] = true :=
  user_dictionary_learn_persists SpellChecker_Create [104, 105] [[97]] (by decide)

/-- C8: a line starting with `#` is skipped by the main-dictionary load (no
entry added) but is added, trimmed, by the user-dictionary load; shown both
for a single read-loop iteration on an arbitrary dictionary state and for a
whole single-line file loaded into a fresh engine. -/
theorem comment_lines_asymmetry (dict : List Word) (rest : List Nat) :
    mainLoadLine dict (35 :: rest) = dict ∧
    userLoadLine dict (35 :: rest) = dict ++ [trimTrailing (35 :: rest)] ∧
    (SpellChecker_LoadDictionary SpellChecker_Create
        (some [35 :: rest])).1.mainDictionary = [] ∧
    (SpellChecker_LoadUserDictionary SpellChecker_Create
        (some [35 :: rest])).1.userDictionary = [trimTrailing (35 :: rest)] := by
  have hmainAll : ∀ d : List Word, mainLoadLine d (35 :: rest) = d := by
    intro d
    unfold mainLoadLine
    rw [trimTrailing_hash]
    simp
  have huserAll : ∀ d : List Word, userLoadLine d (35 :: rest)
      = d ++ [trimTrailing (35 :: rest)] := by
    intro d
    unfold userLoadLine
    rw [trimTrailing_hash]
  refine ⟨hmainAll dict, huserAll dict, ?_, ?_⟩
  · simp [SpellChecker_LoadDictionary, SpellChecker_Create, hmainAll]
  · simp [SpellChecker_LoadUserDictionary, SpellChecker_Create, huserAll,
      trimTrailing_hash, sortDict, List.insertionSort, List.orderedInsert]

/-- C9: `SpellChecker_Check` leaves the main dictionary, the user dictionary,
the ignore list and both flags unchanged; the misspelled list is the only
engine state it modifies. -/
theorem check_frame_effect (sc : SpellChecker) (text : Option (List Nat)) :
    (SpellChecker_Check sc text).mainDictionary = sc.mainDictionary ∧
    (SpellChecker_Check sc text).userDictionary = sc.userDictionary ∧
    (SpellChecker_Check sc text).ignoredWords = sc.ignoredWords ∧
    (SpellChecker_Check sc text).enabled = sc.enabled ∧
    (SpellChecker_Check sc text).suggestionsEnabled = sc.suggestionsEnabled ∧
    SpellChecker_Check sc text
      = { sc with misspelled := (SpellChecker_Check sc text).misspelled } := by
  obtain ⟨m, hm⟩ := check_frame sc text
  rw [hm]
  exact ⟨rfl, rfl, rfl, rfl, rfl, rfl⟩

/-- C10: the candidate scan of `SpellChecker_GetSuggestions` stops at the
first 10 qualifying dictionary entries: once 10 candidates are collected,
appending any further entries to the dictionary does not change the result
at all. -/
theorem suggestions_scan_cap (sc : SpellChecker) (es : List Word) (word : Word)
    (h : (collectSuggestions word sc.mainDictionary 0).length = 10) :
    SpellChecker_GetSuggestions { sc with mainDictionary := sc.mainDictionary ++ es } word
      = SpellChecker_GetSuggestions sc word := by
  have hc : collectSuggestions word (sc.mainDictionary ++ es) 0
      = collectSuggestions word sc.mainDictionary 0 :=
    collectSuggestions_append word sc.mainDictionary es 0 (by omega)
  show ((((selSort (collectSuggestions word (sc.mainDictionary ++ es) 0)).take 5).map Prod.fst),
      ((((selSort (collectSuggestions word (sc.mainDictionary ++ es) 0)).take 5).map Prod.fst)).length)
    = SpellChecker_GetSuggestions sc word
  rw [hc]
  rfl

/-- C10 witness: ten copies of "ab" all qualify for the word "a"; the later
entry "b", although at distance 1, is never considered and is absent from
the returned top 5. -/
theorem suggestions_scan_cap_witness :
    (collectSuggestions [97] (List.replicate 10 [97, 98]) 0).length = 10 ∧
    SpellChecker_GetSuggestions
        { SpellChecker_Create with mainDictionary := List.replicate 10 [97, 98] ++ [[98]] } [97]
      = SpellChecker_GetSuggestions
        { SpellChecker_Create with mainDictionary := List.replicate 10 [97, 98] } [97] ∧
    LevenshteinDistance [97] [98] = 1 ∧
    [98] ∉ (SpellChecker_GetSuggestions
        { SpellChecker_Create with mainDictionary := List.replicate 10 [97, 98] ++ [[98]] }
        [97]).1 :=
  ⟨by decide,
    suggestions_scan_cap { SpellChecker_Create with mainDictionary := List.replicate 10 [97, 98] }
      [[98]] [97] (by decide),
    by decide, by decide⟩
